import Mathlib

/-!
Verification of the DE10-Nano BitNet accelerator offload driver
(software side).  The definitions below are shallow embeddings of the C
functions in `software/bitnet_test/bitnet_test_common.h`,
`software/bitmamba_fpga/bitnet_fpga.h`, `software/test_bitnet.c` and
`software/mnist/mnist_inference.c`.  Machine integers are modelled as
`Int`/`Nat` with explicit two's-complement wrapping where the C type
could overflow.
-/

namespace BitNet

/-- Two's-complement wrap of an integer into the `int32_t` range
`[-2^31, 2^31)`, modelling C 32-bit signed accumulation. -/
def wrap32 (n : Int) : Int :=
  (n + 2147483648) % 4294967296 - 2147483648

/-- Two's-complement narrowing of an integer to `int8_t` range
`[-128, 128)`, modelling the C cast `(int8_t)`. -/
def toInt8 (n : Int) : Int :=
  (n + 128) % 256 - 128

/-- The clamp in `compute_expected_row`:
`if (acc > 127) acc = 127; if (acc < -128) acc = -128;`. -/
def clampInt8 (n : Int) : Int :=
  if n > 127 then 127 else if n < -128 then -128 else n

/-- Arithmetic (sign-preserving) right shift by `s`: floor division by
`2^s`, which is what `acc >> s` performs on a negative `int32_t` on this
target. -/
def asr (n : Int) (s : Nat) : Int :=
  Int.fdiv n (2 ^ s)

/-- `compute_expected_row` from `bitnet_test_common.h`: 32-bit signed
dot product (`acc += weights[i] * acts[i]`), arithmetic right shift by
`shift`, clamp to `[-128, 127]`, return as `int8_t`.  The weight and
activation arrays are modelled as lists; each `+=` wraps as `int32_t`. -/
def compute_expected_row (weights acts : List Int) (shift : Nat) : Int :=
  let acc := (List.zipWith (· * ·) weights acts).foldl (fun a t => wrap32 (a + t)) 0
  toInt8 (clampInt8 (asr acc shift))

/-- The exact (unbounded) integer dot product `Σ_k weights[k] * acts[k]`. -/
def dotInt (weights acts : List Int) : Int :=
  (List.zipWith (· * ·) weights acts).sum

lemma wrap32_wrap32_add (a b : Int) : wrap32 (wrap32 a + b) = wrap32 (a + b) := by
  unfold wrap32
  omega

lemma wrap32_zero : wrap32 0 = 0 := by
  unfold wrap32
  omega

lemma foldl_wrap32_eq (l : List Int) :
    ∀ a : Int, l.foldl (fun x t => wrap32 (x + t)) (wrap32 a) = wrap32 (a + l.sum) := by
  induction l with
  | nil =>
    intro a
    simp [List.foldl_nil]
  | cons h t ih =>
    intro a
    simp only [List.foldl_cons, List.sum_cons]
    rw [wrap32_wrap32_add, ih (a + h), add_assoc]

lemma clampInt8_range (n : Int) : -128 ≤ clampInt8 n ∧ clampInt8 n ≤ 127 := by
  unfold clampInt8
  split_ifs <;> omega

lemma toInt8_of_range (n : Int) (h1 : -128 ≤ n) (h2 : n ≤ 127) : toInt8 n = n := by
  unfold toInt8
  omega

lemma toInt8_clampInt8 (n : Int) : toInt8 (clampInt8 n) = clampInt8 n :=
  toInt8_of_range _ (clampInt8_range n).1 (clampInt8_range n).2

/-- C1.  For ternary weights, int8 activations and shift `s ≤ 9`, the
reference model `compute_expected_row` returns
`clamp((Σ_k w[k]*a[k]) >>ₐ s, -128, 127)` where the dot product is taken
in 32-bit signed arithmetic (`wrap32`), the arithmetic right shift is
applied to the accumulator, and the clamp comes after the shift (the
result of the shift is fed unclamped into `clampInt8`); the returned
value always lies in `[-128, 127]`. -/
theorem compute_expected_row_spec (weights acts : List Int) (K shift : Nat)
    (hwlen : weights.length = K) (halen : acts.length = K)
    (hw : ∀ w ∈ weights, w = -1 ∨ w = 0 ∨ w = 1)
    (ha : ∀ a ∈ acts, -128 ≤ a ∧ a ≤ 127)
    (hs : shift ≤ 9) :
    compute_expected_row weights acts shift =
      clampInt8 (asr (wrap32 (dotInt weights acts)) shift) ∧
    -128 ≤ compute_expected_row weights acts shift ∧
    compute_expected_row weights acts shift ≤ 127 := by
  have hacc : (List.zipWith (· * ·) weights acts).foldl (fun a t => wrap32 (a + t)) 0 =
      wrap32 (dotInt weights acts) := by
    have := foldl_wrap32_eq (List.zipWith (· * ·) weights acts) 0
    rw [wrap32_zero] at this
    rw [this, zero_add]
    rfl
  unfold compute_expected_row
  rw [hacc, toInt8_clampInt8]
  exact ⟨rfl, (clampInt8_range _).1, (clampInt8_range _).2⟩

/-- Witness for C1 at a concrete input. -/
theorem compute_expected_row_spec_witness :
    (1 : Nat) ≤ 9 ∧
    compute_expected_row [1, -1, 0] [100, 50, 7] 1 =
      clampInt8 (asr (wrap32 (dotInt [1, -1, 0] [100, 50, 7])) 1) :=
  ⟨by decide,
   (compute_expected_row_spec [1, -1, 0] [100, 50, 7] 3 1 rfl rfl
      (by decide) (by decide) (by decide)).1⟩

/-! ### argmax (mnist_inference.c) -/

/-- `argmax_int8` from `mnist_inference.c`:
`best = 0; for (i = 1; i < n; i++) if (buf[i] > buf[best]) best = i;`.
The buffer is modelled as a list; out-of-range reads default to 0 but
never occur for the loop's indices. -/
def argmax_int8 (buf : List Int) : Nat :=
  (List.range' 1 (buf.length - 1)).foldl
    (fun best i => if buf.getD i 0 > buf.getD best 0 then i else best) 0

lemma argmax_loop_inv (buf : List Int) :
    ∀ (k i best : Nat), best < i →
      (∀ j, j < i → buf.getD j 0 ≤ buf.getD best 0) →
      (∀ j, j < best → buf.getD j 0 < buf.getD best 0) →
      ((List.range' i k).foldl
          (fun b m => if buf.getD m 0 > buf.getD b 0 then m else b) best) < i + k ∧
      (∀ j, j < i + k →
        buf.getD j 0 ≤ buf.getD ((List.range' i k).foldl
          (fun b m => if buf.getD m 0 > buf.getD b 0 then m else b) best) 0) ∧
      (∀ j, j < (List.range' i k).foldl
          (fun b m => if buf.getD m 0 > buf.getD b 0 then m else b) best →
        buf.getD j 0 < buf.getD ((List.range' i k).foldl
          (fun b m => if buf.getD m 0 > buf.getD b 0 then m else b) best) 0) := by
  intro k
  induction k with
  | zero =>
    intro i best hlt hle hstrict
    simp only [List.range'_zero, List.foldl_nil]
    exact ⟨by omega, fun j hj => hle j hj, hstrict⟩
  | succ k ih =>
    intro i best hlt hle hstrict
    rw [List.range'_succ]
    simp only [List.foldl_cons]
    by_cases h : buf.getD i 0 > buf.getD best 0
    · rw [if_pos h]
      have h1 : i < i + 1 := by omega
      have h2 : ∀ j, j < i + 1 → buf.getD j 0 ≤ buf.getD i 0 := by
        intro j hj
        rcases Nat.lt_succ_iff_lt_or_eq.mp hj with hj' | hj'
        · exact le_of_lt (lt_of_le_of_lt (hle j hj') h)
        · rw [hj']
      have h3 : ∀ j, j < i → buf.getD j 0 < buf.getD i 0 := by
        intro j hj
        exact lt_of_le_of_lt (hle j hj) h
      have := ih (i + 1) i h1 h2 h3
      constructor
      · have := this.1
        omega
      constructor
      · intro j hj
        exact this.2.1 j (by omega)
      · exact this.2.2
    · rw [if_neg h]
      have h2 : ∀ j, j < i + 1 → buf.getD j 0 ≤ buf.getD best 0 := by
        intro j hj
        rcases Nat.lt_succ_iff_lt_or_eq.mp hj with hj' | hj'
        · exact hle j hj'
        · rw [hj']; omega
      have := ih (i + 1) best (by omega) h2 hstrict
      constructor
      · have := this.1
        omega
      constructor
      · intro j hj
        exact this.2.1 j (by omega)
      · exact this.2.2

/-- C8.  For a nonempty buffer, `argmax_int8` returns an index in
`[0, n)` attaining the maximum, and every strictly earlier index holds a
strictly smaller value (ties broken toward the earlier index, since only
a strictly greater value replaces the current best). -/
theorem argmax_int8_first_max (buf : List Int) (h : 1 ≤ buf.length) :
    argmax_int8 buf < buf.length ∧
    (∀ j, j < buf.length → buf.getD j 0 ≤ buf.getD (argmax_int8 buf) 0) ∧
    (∀ j, j < argmax_int8 buf → buf.getD j 0 < buf.getD (argmax_int8 buf) 0) := by
  have inv := argmax_loop_inv buf (buf.length - 1) 1 0 (by omega)
    (by intro j hj; interval_cases j; exact le_refl _)
    (by intro j hj; omega)
  have hlen : 1 + (buf.length - 1) = buf.length := by omega
  rw [hlen] at inv
  exact ⟨inv.1, inv.2.1, inv.2.2⟩

/-- Witness for C8 at a concrete input: the max 7 first occurs at index 1. -/
theorem argmax_int8_first_max_witness :
    1 ≤ ([3, 7, 7, 1] : List Int).length ∧
    argmax_int8 [3, 7, 7, 1] < ([3, 7, 7, 1] : List Int).length :=
  ⟨by decide, (argmax_int8_first_max [3, 7, 7, 1] (by decide)).1⟩

/-! ### Image preprocessing (mnist_inference.c) -/

/-- The pixel quantization performed at the end of `preprocess_image`:
`output[i] = (int8_t)(img28[i] * 127 / 255)` where `img28[i]` is a
`uint8_t` pixel promoted to `int`. -/
def preprocess_quantize (p : Nat) : Int :=
  toInt8 ((p * 127 / 255 : Nat) : Int)

/-- The 784-element activation vector produced by `preprocess_image`
from the decoded 28×28 pixel buffer. -/
def preprocess_image (img : Fin 784 → Nat) : Fin 784 → Int :=
  fun i => preprocess_quantize (img i)

/-- C10.  For any accepted image (all pixels in `[0, 255]`), each output
activation equals `pixel * 127 / 255` and lies in `[0, 127]`; in
particular the first-layer activation vector is never negative. -/
theorem preprocess_image_range (img : Fin 784 → Nat)
    (himg : ∀ i, img i ≤ 255) (i : Fin 784) :
    preprocess_image img i = ((img i * 127 / 255 : Nat) : Int) ∧
    0 ≤ preprocess_image img i ∧ preprocess_image img i ≤ 127 := by
  have hp := himg i
  have hdiv : img i * 127 / 255 ≤ 127 := by omega
  unfold preprocess_image preprocess_quantize toInt8
  generalize img i * 127 / 255 = v at hdiv ⊢
  refine ⟨by omega, by omega, by omega⟩

/-- Witness for C10 at a concrete input. -/
theorem preprocess_image_range_witness :
    0 ≤ preprocess_image (fun _ => 200) 0 ∧ preprocess_image (fun _ => 200) 0 ≤ 127 :=
  (preprocess_image_range (fun _ => 200) (by intro i; show (200 : Nat) ≤ 255; decide) 0).2

/-! ### Process exit codes (mnist_inference.c, mode_files) -/

/-- Per-image outcome inside the `mode_files` loop of
`mnist_inference.c`: `preprocess_image` can fail (file I/O / malformed
input), `fpga_inference` can time out, or inference succeeds with a
predicted digit. -/
inductive ImageOutcome where
  | preprocFail : ImageOutcome
  | fpgaTimeout : ImageOutcome
  | ok : Nat → ImageOutcome
deriving DecidableEq

/-- `true` exactly for the outcomes on which the loop increments `count`. -/
def outcome_success : ImageOutcome → Bool
  | .ok _ => true
  | _ => false

/-- The exit code computed by `mode_files`: failures of individual
images are skipped (`continue`), `count` counts successful inferences,
and the function returns 1 iff `count == 0`, else 0. -/
def mode_files (outcomes : List ImageOutcome) : Nat :=
  let count := (outcomes.filter outcome_success).length
  if count = 0 then 1 else 0

/-- `main` of `test_bitnet.c`: `passed` accumulates the tests' return
values (1 = pass; a wait-for-done timeout or a wrong result makes the
test return 0), `total` is the number of tests run, and the process
returns `(passed == total) ? 0 : 1`.  The per-test pass booleans are
the list `tests`. -/
def test_bitnet_exit (tests : List Bool) : Nat :=
  let passed := (tests.filter (fun t => t)).length
  if passed = tests.length then 0 else 1

/-- `main` of `test_bitnet_comprehensive.c`: each `TEST_PASS` /
`TEST_FAIL` (timeouts of `run_test` included) bumps the corresponding
global counter and the process returns `(g_tests_failed == 0) ? 0 : 1`.
The per-check pass booleans are the list `checks`. -/
def comprehensive_exit (checks : List Bool) : Nat :=
  let failed := (checks.filter (fun c => !c)).length
  if failed = 0 then 0 else 1

/-- C6 counterexample: a run in which a file I/O (preprocessing) failure
occurred still exits with code 0 provided some later image succeeded, so
the exit code is not 1 "whenever any … file I/O failure occurred". -/
theorem mode_files_exit_counterexample :
    ImageOutcome.preprocFail ∈ [ImageOutcome.preprocFail, ImageOutcome.ok 3] ∧
    mode_files [ImageOutcome.preprocFail, ImageOutcome.ok 3] = 0 := by
  constructor
  · decide
  · rfl

/-- C6 (amended), covering the three cited exit paths.
`test_bitnet` exits 0 iff every test passed and 1 otherwise;
`test_bitnet_comprehensive` exits 0 iff no check failed and 1
otherwise (in both, a hardware timeout fails the affected test/check);
`mnist_inference`'s file mode skips per-image preprocessing (file I/O)
failures and FPGA timeouts, exiting 0 iff at least one image was
successfully processed and 1 iff none was. -/
theorem exit_code_characterization (outcomes : List ImageOutcome)
    (tests checks : List Bool) :
    (mode_files outcomes = 0 ↔ outcomes.any outcome_success) ∧
    (mode_files outcomes = 1 ↔ outcomes.all (fun o => !(outcome_success o))) ∧
    (test_bitnet_exit tests = 0 ↔ tests.all (fun t => t)) ∧
    (test_bitnet_exit tests = 1 ↔ tests.any (fun t => !t)) ∧
    (comprehensive_exit checks = 0 ↔ checks.all (fun c => c)) ∧
    (comprehensive_exit checks = 1 ↔ checks.any (fun c => !c)) := by
  have hmf : (mode_files outcomes = 0 ↔ outcomes.any outcome_success) ∧
      (mode_files outcomes = 1 ↔ outcomes.all (fun o => !(outcome_success o))) := by
    unfold mode_files
    by_cases h : (outcomes.filter outcome_success).length = 0
    · rw [if_pos h]
      have hnil : outcomes.filter outcome_success = [] := List.length_eq_zero.mp h
      have hall : ∀ o ∈ outcomes, outcome_success o = false := by
        intro o ho
        by_contra hc
        have : o ∈ outcomes.filter outcome_success := by
          rw [List.mem_filter]
          exact ⟨ho, by simpa using hc⟩
        rw [hnil] at this
        exact absurd this (List.not_mem_nil o)
      constructor
      · constructor
        · intro h10; omega
        · intro hany
          rcases List.any_eq_true.mp hany with ⟨o, ho, hsucc⟩
          rw [hall o ho] at hsucc
          exact absurd hsucc (by simp)
      · constructor
        · intro _
          rw [List.all_eq_true]
          intro o ho
          rw [hall o ho]
          rfl
        · intro _; rfl
    · rw [if_neg h]
      have hne : outcomes.filter outcome_success ≠ [] := by
        intro hnil
        rw [hnil] at h
        exact h rfl
      rcases List.exists_mem_of_ne_nil _ hne with ⟨o, hmem⟩
      rw [List.mem_filter] at hmem
      rcases hmem with ⟨ho, hsucc⟩
      constructor
      · constructor
        · intro _
          exact List.any_eq_true.mpr ⟨o, ho, hsucc⟩
        · intro _; rfl
      · constructor
        · intro h01; omega
        · intro hall
          have := List.all_eq_true.mp hall o ho
          rw [hsucc] at this
          exact absurd this (by simp)
  have htb0 : test_bitnet_exit tests = 0 ↔ tests.all (fun t => t) := by
    unfold test_bitnet_exit
    by_cases h : (tests.filter (fun t => t)).length = tests.length
    · rw [if_pos h]
      rw [List.filter_length_eq_length] at h
      rw [List.all_eq_true]
      exact ⟨fun _ => h, fun _ => rfl⟩
    · rw [if_neg h]
      rw [List.all_eq_true]
      constructor
      · intro h10; omega
      · intro hall
        exact absurd (List.filter_length_eq_length.mpr (fun a ha => hall a ha)) h
  have htb1 : test_bitnet_exit tests = 1 ↔ tests.any (fun t => !t) := by
    unfold test_bitnet_exit
    by_cases h : (tests.filter (fun t => t)).length = tests.length
    · rw [if_pos h]
      rw [List.filter_length_eq_length] at h
      rw [List.any_eq_true]
      constructor
      · intro h01; omega
      · rintro ⟨a, ha, hna⟩
        have hta := h a ha
        simp only at hta hna
        rw [hta] at hna
        exact absurd hna (by decide)
    · rw [if_neg h]
      rw [List.any_eq_true]
      constructor
      · intro _
        by_contra hno
        push_neg at hno
        apply h
        apply List.filter_length_eq_length.mpr
        intro a ha
        have hnota := hno a ha
        simp only at hnota ⊢
        cases a with
        | true => rfl
        | false => exact absurd rfl hnota
      · intro _; rfl
  have hce0 : comprehensive_exit checks = 0 ↔ checks.all (fun c => c) := by
    unfold comprehensive_exit
    by_cases h : (checks.filter (fun c => !c)).length = 0
    · rw [if_pos h]
      have hnil := List.filter_eq_nil_iff.mp (List.length_eq_zero.mp h)
      rw [List.all_eq_true]
      constructor
      · intro _ a ha
        have hna := hnil a ha
        simp only at hna ⊢
        cases a with
        | true => rfl
        | false => exact absurd rfl hna
      · intro _; rfl
    · rw [if_neg h]
      rw [List.all_eq_true]
      constructor
      · intro h10; omega
      · intro hall
        apply absurd _ h
        rw [List.length_eq_zero, List.filter_eq_nil_iff]
        intro a ha
        have hta := hall a ha
        simp only at hta ⊢
        rw [hta]
        decide
  have hce1 : comprehensive_exit checks = 1 ↔ checks.any (fun c => !c) := by
    unfold comprehensive_exit
    by_cases h : (checks.filter (fun c => !c)).length = 0
    · rw [if_pos h]
      have hnil := List.filter_eq_nil_iff.mp (List.length_eq_zero.mp h)
      rw [List.any_eq_true]
      constructor
      · intro h01; omega
      · rintro ⟨a, ha, hna⟩
        exact absurd hna (hnil a ha)
    · rw [if_neg h]
      rw [List.any_eq_true]
      constructor
      · intro _
        have hne : checks.filter (fun c => !c) ≠ [] := by
          intro hnil
          rw [hnil] at h
          exact h rfl
        rcases List.exists_mem_of_ne_nil _ hne with ⟨a, hmem⟩
        rw [List.mem_filter] at hmem
        exact ⟨a, hmem.1, hmem.2⟩
      · intro _; rfl
  exact ⟨hmf.1, hmf.2, htb0, htb1, hce0, hce1⟩

/-! ### Weight codec (pack_weights / write_weight_matrix) -/

/-- Hardware tile width (number of processing elements). -/
def NUM_PES : Nat := 64

/-- The 2-bit encoding of one coefficient in `pack_weights`:
`0x1` for `+1`, `0x2` for `-1`, `0x0` otherwise. -/
def encw (w : Int) : Nat :=
  if w = 1 then 1 else if w = -1 then 2 else 0

/-- `pack_weights` from `bitnet_test_common.h` / `test_bitnet.c`, one
output word at a time: word `out[j]` (`j < 4`) is accumulated by
`out[i / 16] |= enc << ((i % 16) * 2)`, so input lane `16*j + i`
(`i < 16`) lands in word `j` at bit offset `2*i`; the word starts from
the `memset` zero. -/
def pack_weights (weights : Nat → Int) : Nat → Nat := fun j =>
  (List.range 16).foldl (fun acc i => acc ||| (encw (weights (16 * j + i)) <<< (2 * i))) 0

/-- Extraction of 2-bit field `i` from a packed word: the decoder's
(hardware's) view of the encoding. -/
def get_field (word i : Nat) : Nat := (word >>> (2 * i)) &&& 3

/-- Modelled from the spec: the decoding table `00=0, 01=+1, 10=-1`
applied to each 2-bit field (the inverse direction of the codec, which
lives in the FPGA fabric, not in the C sources). -/
def decode2 (e : Nat) : Int := if e = 1 then 1 else if e = 2 then -1 else 0

/-- `tiles_per_row = (K + NUM_PES - 1) / NUM_PES` from
`write_weight_matrix`. -/
def tiles_per_row (K : Nat) : Nat := (K + NUM_PES - 1) / NUM_PES

/-- The `chunk[i]` value assembled by `write_weight_matrix` for tile
`tile` of row `row`: the matrix entry `wmat[row * K + col]` when column
`col = tile * NUM_PES + i` is in range, zero padding otherwise. -/
def chunk_val (wmat : Nat → Int) (K row tile i : Nat) : Int :=
  if tile * NUM_PES + i < K then wmat (row * K + (tile * NUM_PES + i)) else 0

/-- The DDR3 contents (map from `uint32` index to word value) produced
by `write_weight_matrix`: the loop writes the packed tile of
`(row, tile)` at `word_offset = (row * tiles_per_row + tile) * 4`,
touching each word exactly once, so the final memory is this function;
indices beyond the written range keep their initial value 0. -/
def write_weight_matrix (wmat : Nat → Int) (M K : Nat) : Nat → Nat := fun w =>
  if w / 4 < M * tiles_per_row K then
    pack_weights
      (fun i => chunk_val wmat K (w / 4 / tiles_per_row K) (w / 4 % tiles_per_row K) i)
      (w % 4)
  else 0

/-- Word offset (in `uint32` units) of tile `(row, tile)`, as computed
by `write_weight_matrix`. -/
def tile_word_offset (K row tile : Nat) : Nat := (row * tiles_per_row K + tile) * 4

/-- Byte offset of tile `(row, tile)` in the DDR3 layout. -/
def tile_byte_offset (K row tile : Nat) : Nat := tile_word_offset K row tile * 4

/-- Row stride in bytes: tiles-per-row × 16 bytes per 128-bit tile. -/
def row_stride_bytes (K : Nat) : Nat := tiles_per_row K * 16

/-- The 2-bit code stored for logical position `(row, col)` after
`write_weight_matrix`: `col` selects tile `col / 64`, word
`(col % 64) / 16` within the tile and field `(col % 64) % 16` within
the word. -/
def stored_code (wmat : Nat → Int) (M K row col : Nat) : Nat :=
  get_field
    (write_weight_matrix wmat M K
      ((row * tiles_per_row K + col / NUM_PES) * 4 + col % NUM_PES / 16))
    (col % NUM_PES % 16)

lemma encw_lt_four (w : Int) : encw w < 4 := by
  unfold encw
  split_ifs <;> omega

lemma encw_ne_three (w : Int) : encw w ≠ 3 := by
  unfold encw
  split_ifs <;> omega

lemma sum_digits_lt (g : Nat → Nat) (hg : ∀ i, g i < 4) (n : Nat) :
    (∑ i ∈ Finset.range n, g i * 4 ^ i) < 4 ^ n := by
  induction n with
  | zero => simp
  | succ n ih =>
    rw [Finset.sum_range_succ]
    have h3 : g n ≤ 3 := by have := hg n; omega
    have hmul : g n * 4 ^ n ≤ 3 * 4 ^ n := Nat.mul_le_mul_right (4 ^ n) h3
    have hpow : (4 : Nat) ^ (n + 1) = 4 ^ n + 3 * 4 ^ n := by ring
    omega

lemma foldl_lor_eq_sum (g : Nat → Nat) (hg : ∀ i, g i < 4) :
    ∀ n, (List.range n).foldl (fun acc i => acc ||| (g i <<< (2 * i))) 0 =
      ∑ i ∈ Finset.range n, g i * 4 ^ i := by
  intro n
  induction n with
  | zero => simp
  | succ n ih =>
    rw [List.range_succ, List.foldl_append, ih, List.foldl_cons, List.foldl_nil,
      Finset.sum_range_succ]
    have hpow : (2 : Nat) ^ (2 * n) = 4 ^ n := by
      rw [pow_mul]; norm_num
    have hlt2 : (∑ i ∈ Finset.range n, g i * 4 ^ i) < 2 ^ (2 * n) := by
      rw [hpow]; exact sum_digits_lt g hg n
    have hor := Nat.mul_add_lt_is_or hlt2 (g n)
    rw [Nat.shiftLeft_eq, ← hpow, mul_comm (g n) ((2 : Nat) ^ (2 * n)), Nat.lor_comm, ← hor]
    omega

lemma sum_shift (d : Nat → Nat) (m : Nat) :
    (∑ i ∈ Finset.range (m + 1), d i * 4 ^ i) =
      4 * (∑ i ∈ Finset.range m, d (i + 1) * 4 ^ i) + d 0 := by
  rw [Finset.sum_range_succ', Finset.mul_sum]
  simp only [pow_zero, mul_one]
  congr 1
  apply Finset.sum_congr rfl
  intro i _
  ring

lemma sum_digits_extract :
    ∀ (k : Nat) (d : Nat → Nat), (∀ i, d i < 4) → ∀ n, k < n →
      (∑ i ∈ Finset.range n, d i * 4 ^ i) / 4 ^ k % 4 = d k := by
  intro k
  induction k with
  | zero =>
    intro d hd n hn
    cases n with
    | zero => omega
    | succ m =>
      rw [sum_shift d m]
      have := hd 0
      simp only [pow_zero, Nat.div_one]
      omega
  | succ k ih =>
    intro d hd n hn
    cases n with
    | zero => omega
    | succ m =>
      rw [sum_shift d m]
      have h0 : d 0 < 4 := hd 0
      have hdiv4 : (4 * (∑ i ∈ Finset.range m, d (i + 1) * 4 ^ i) + d 0) / 4 ^ (k + 1) =
          (∑ i ∈ Finset.range m, d (i + 1) * 4 ^ i) / 4 ^ k := by
        rw [pow_succ, mul_comm ((4 : Nat) ^ k) 4, ← Nat.div_div_eq_div_mul]
        congr 1
        omega
      rw [hdiv4]
      exact ih (fun i => d (i + 1)) (fun i => hd (i + 1)) m (by omega)

lemma get_field_eq (word i : Nat) : get_field word i = word / 4 ^ i % 4 := by
  unfold get_field
  have h3 : (3 : Nat) = 2 ^ 2 - 1 := by norm_num
  have hp : (2 : Nat) ^ (2 * i) = 4 ^ i := by rw [pow_mul]; norm_num
  rw [h3, Nat.and_pow_two_sub_one_eq_mod, Nat.shiftRight_eq_div_pow, hp]

lemma get_field_pack_weights (c : Nat → Int) (j i : Nat) (hi : i < 16) :
    get_field (pack_weights c j) i = encw (c (16 * j + i)) := by
  have h := foldl_lor_eq_sum (fun i' => encw (c (16 * j + i'))) (fun i' => encw_lt_four _) 16
  simp only at h
  have h2 := sum_digits_extract i (fun i' => encw (c (16 * j + i'))) (fun i' => encw_lt_four _) 16 hi
  simp only at h2
  unfold pack_weights
  rw [get_field_eq, h, h2]

lemma decode2_encw (v : Int) (hv : v = -1 ∨ v = 0 ∨ v = 1) : decode2 (encw v) = v := by
  rcases hv with h | h | h <;> subst h <;> decide

lemma stored_code_eq (wmat : Nat → Int) (M K row col : Nat)
    (hrow : row < M) (hcol : col < tiles_per_row K * NUM_PES) :
    stored_code wmat M K row col =
      encw (chunk_val wmat K row (col / NUM_PES) (col % NUM_PES)) := by
  unfold stored_code write_weight_matrix
  simp only [NUM_PES] at hcol ⊢
  have htpr : 0 < tiles_per_row K := by
    rcases Nat.eq_zero_or_pos (tiles_per_row K) with h | h
    · rw [h] at hcol; omega
    · exact h
  have hdiv64 : col / 64 < tiles_per_row K := Nat.div_lt_of_lt_mul (by omega)
  have hsub : col % 64 / 16 < 4 := by omega
  have hw4 : ((row * tiles_per_row K + col / 64) * 4 + col % 64 / 16) / 4 =
      row * tiles_per_row K + col / 64 := by omega
  have hw4m : ((row * tiles_per_row K + col / 64) * 4 + col % 64 / 16) % 4 =
      col % 64 / 16 := by omega
  rw [hw4, hw4m]
  have haddr : row * tiles_per_row K + col / 64 < M * tiles_per_row K := by
    calc row * tiles_per_row K + col / 64
        < row * tiles_per_row K + tiles_per_row K := by omega
      _ = (row + 1) * tiles_per_row K := by ring
      _ ≤ M * tiles_per_row K := Nat.mul_le_mul_right _ (by omega)
  rw [if_pos haddr]
  have hXdiv : (row * tiles_per_row K + col / 64) / tiles_per_row K = row := by
    rw [mul_comm row (tiles_per_row K), Nat.mul_add_div htpr]
    rw [Nat.div_eq_of_lt hdiv64, Nat.add_zero]
  have hXmod : (row * tiles_per_row K + col / 64) % tiles_per_row K = col / 64 := by
    rw [mul_comm row (tiles_per_row K), Nat.mul_add_mod]
    exact Nat.mod_eq_of_lt hdiv64
  rw [hXdiv, hXmod]
  have harg : 16 * (col % 64 / 16) + col % 64 % 16 = col % 64 := by omega
  rw [get_field_pack_weights (fun i => chunk_val wmat K row (col / 64) i)
    (col % 64 / 16) (col % 64 % 16) (by omega)]
  show encw (chunk_val wmat K row (col / 64) (16 * (col % 64 / 16) + col % 64 % 16)) = _
  rw [harg]

/-- C3.  Writing a ternary M×K matrix through
`pack_weights`/`write_weight_matrix` and decoding each stored 2-bit
field with the `00=0, 01=+1, 10=-1` table recovers the matrix exactly;
the reserved code `11` is never stored at any position of the row,
including the zero-padded columns at or beyond `K`. -/
theorem weight_codec_roundtrip (wmat : Nat → Int) (M K row col : Nat)
    (hternary : ∀ i, wmat i = -1 ∨ wmat i = 0 ∨ wmat i = 1)
    (hrow : row < M) (hcol : col < K) :
    decode2 (stored_code wmat M K row col) = wmat (row * K + col) ∧
    (∀ col', col' < tiles_per_row K * NUM_PES → stored_code wmat M K row col' ≠ 3) := by
  have hKle : K ≤ tiles_per_row K * NUM_PES := by
    unfold tiles_per_row NUM_PES
    omega
  constructor
  · rw [stored_code_eq wmat M K row col hrow (by omega)]
    have hchunk : chunk_val wmat K row (col / NUM_PES) (col % NUM_PES) = wmat (row * K + col) := by
      unfold chunk_val
      have hcol64 : col / NUM_PES * NUM_PES + col % NUM_PES = col := by
        simp only [NUM_PES]; omega
      rw [hcol64, if_pos hcol]
    rw [hchunk]
    exact decode2_encw _ (hternary _)
  · intro col' hcol'
    rw [stored_code_eq wmat M K row col' hrow hcol']
    exact encw_ne_three _

/-- Witness for C3 at a concrete input (M = 2, K = 70, so the second
tile of each row is partial). -/
theorem weight_codec_roundtrip_witness :
    (1 : Nat) < 2 ∧ (65 : Nat) < 70 ∧
    decode2 (stored_code (fun n => if n % 3 = 0 then -1 else 1) 2 70 1 65) =
      (fun n => if n % 3 = 0 then (-1 : Int) else 1) (1 * 70 + 65) :=
  ⟨by decide, by decide,
   (weight_codec_roundtrip (fun n => if n % 3 = 0 then -1 else 1) 2 70 1 65
      (by
        intro i
        show (if i % 3 = 0 then (-1 : Int) else 1) = -1 ∨
          (if i % 3 = 0 then (-1 : Int) else 1) = 0 ∨
          (if i % 3 = 0 then (-1 : Int) else 1) = 1
        by_cases h : i % 3 = 0
        · rw [if_pos h]; exact Or.inl rfl
        · rw [if_neg h]; exact Or.inr (Or.inr rfl))
      (by decide) (by decide)).1⟩

/-- C4.  The tile for `(row, tile)` sits at byte offset
`row * tiles_per_row * 16 + tile * 16`; consequently each row occupies
the same `row_stride_bytes K = tiles_per_row K * 16` bytes — a function
of `K` alone, independent of `M` and of the row index — and columns at
or beyond `K` are encoded as weight 0. -/
theorem weight_layout_stride (wmat : Nat → Int) (K row tile i : Nat) :
    tile_byte_offset K row tile = row * (tiles_per_row K * 16) + tile * 16 ∧
    tile_byte_offset K (row + 1) 0 = tile_byte_offset K row 0 + row_stride_bytes K ∧
    (K ≤ tile * NUM_PES + i → chunk_val wmat K row tile i = 0) := by
  refine ⟨?_, ?_, ?_⟩
  · unfold tile_byte_offset tile_word_offset
    ring
  · unfold tile_byte_offset tile_word_offset row_stride_bytes
    ring
  · intro h
    unfold chunk_val
    rw [if_neg (by omega)]

/-- Witness for C4 at a concrete input (K = 100: partial last tile). -/
theorem weight_layout_stride_witness :
    tile_byte_offset 100 3 1 = 3 * (tiles_per_row 100 * 16) + 1 * 16 ∧
    chunk_val (fun _ => (1 : Int)) 100 3 1 40 = 0 :=
  ⟨(weight_layout_stride (fun _ => (1 : Int)) 100 3 1 40).1,
   (weight_layout_stride (fun _ => (1 : Int)) 100 3 1 40).2.2 (by decide)⟩

/-- C9.  `pack_weights` is total on arbitrary `int8` lane values: `+1`
is encoded as `01`, `-1` as `10`, and every other value — including
out-of-range ones such as `2` or `-3` — as `00` (a silent zero weight);
the reserved code `11` is never emitted for any input whatsoever. -/
theorem pack_weights_total (w : Nat → Int) (j i : Nat) (hi : i < 16) :
    get_field (pack_weights w j) i = encw (w (16 * j + i)) ∧
    get_field (pack_weights w j) i ≠ 3 ∧
    (w (16 * j + i) = 1 → get_field (pack_weights w j) i = 1) ∧
    (w (16 * j + i) = -1 → get_field (pack_weights w j) i = 2) ∧
    (w (16 * j + i) ≠ 1 → w (16 * j + i) ≠ -1 → get_field (pack_weights w j) i = 0) := by
  have h := get_field_pack_weights w j i hi
  refine ⟨h, ?_, ?_, ?_, ?_⟩
  · rw [h]; exact encw_ne_three _
  · intro hv; rw [h]; unfold encw; rw [if_pos hv]
  · intro hv
    rw [h]; unfold encw
    rw [if_neg (by rw [hv]; decide), if_pos hv]
  · intro hv1 hv2
    rw [h]; unfold encw
    rw [if_neg hv1, if_neg hv2]

/-- Witness for C9 at a concrete input containing out-of-range lane
values (`w n = n - 3` takes values `-3 … 12` on word 0). -/
theorem pack_weights_total_witness :
    (5 : Nat) < 16 ∧
    get_field (pack_weights (fun n => (n : Int) - 3) 0) 5 =
      encw ((fun n => (n : Int) - 3) (16 * 0 + 5)) ∧
    get_field (pack_weights (fun n => (n : Int) - 3) 0) 5 ≠ 3 :=
  ⟨by decide,
   (pack_weights_total (fun n => (n : Int) - 3) 0 5 (by decide)).1,
   (pack_weights_total (fun n => (n : Int) - 3) 0 5 (by decide)).2.1⟩

/-! ### Tiling engine (fpga_bitlinear from bitnet_fpga.h)

The accelerator is modelled by an oracle `f : Nat → Int` giving the raw
32-bit accumulator the hardware produces for the output row whose packed
weights start at a given DDR3 byte address (the activation vector is
resident and fixed for the whole call); an invocation with
`WEIGHT_BASE = b` and `DIM_M = m` fills `RESULT[i] = f (b + i*stride)`
for `i < m`.  `ok rows_done` tells whether `fpga_wait_done` succeeded
for the chunk starting at row offset `rows_done`.  The `fprintf` on
timeout is modelled by the second component: the list of row offsets of
the chunks that timed out, in order. -/

/-- `FPGA_MAX_DIM_M` from `bitnet_fpga.h`. -/
def FPGA_MAX_DIM_M : Nat := 1024

/-- The `while (rows_done < M)` loop of `fpga_bitlinear`, with an
explicit fuel argument (the loop advances by at least one row per
iteration, so `M` units of fuel suffice).  Each iteration takes
`tile_m = min (M - rows_done) FPGA_MAX_DIM_M`, uses weight base
`weight_base + rows_done * stride`, and on timeout zero-fills the
chunk (`memset`), records the failure and continues. -/
def fpga_loop (f : Nat → Int) (ok : Nat → Bool) (wb stride M : Nat) :
    Nat → Nat → List Int × List Nat
  | 0, _ => ([], [])
  | fuel + 1, rows_done =>
    if rows_done < M then
      let tile_m := min (M - rows_done) FPGA_MAX_DIM_M
      let rest := fpga_loop f ok wb stride M fuel (rows_done + tile_m)
      if ok rows_done then
        ((List.range tile_m).map (fun i => f (wb + rows_done * stride + i * stride)) ++ rest.1,
         rest.2)
      else
        (List.replicate tile_m 0 ++ rest.1, rows_done :: rest.2)
    else ([], [])

/-- `fpga_bitlinear` from `bitnet_fpga.h`: the results vector of length
`M` (first component) together with the reported per-chunk timeouts
(second component). -/
def fpga_bitlinear (f : Nat → Int) (ok : Nat → Bool) (wb stride M : Nat) :
    List Int × List Nat :=
  fpga_loop f ok wb stride M M 0

/-- Modelled from the spec: the result vector of a single hypothetical
hardware invocation with unlimited `DIM_M`, reading row `r`'s weights at
`weight_base + r * stride`. -/
def single_invocation_unlimited (f : Nat → Int) (wb stride M : Nat) : List Int :=
  (List.range M).map (fun r => f (wb + r * stride))

lemma fpga_loop_of_le (f : Nat → Int) (ok : Nat → Bool) (wb stride M : Nat)
    (fuel rd : Nat) (h : M ≤ rd) :
    fpga_loop f ok wb stride M fuel rd = ([], []) := by
  cases fuel with
  | zero => rfl
  | succ fuel => simp only [fpga_loop]; rw [if_neg (by omega)]

lemma fpga_chunk_map_ok (f : Nat → Int) (ok : Nat → Bool) (wb stride c n : Nat)
    (hn : n ≤ 1024) (hok : ok (1024 * c) = true) :
    (List.range' (1024 * c) n).map
        (fun j => if ok (1024 * (j / 1024)) then f (wb + j * stride) else 0) =
      (List.range n).map (fun i => f (wb + 1024 * c * stride + i * stride)) := by
  rw [List.range'_eq_map_range, List.map_map]
  apply List.map_congr_left
  intro a ha
  have ha' : a < n := List.mem_range.mp ha
  have hdiv : (1024 * c + a) / 1024 = c := by omega
  show (if ok (1024 * ((1024 * c + a) / 1024)) then
      f (wb + (1024 * c + a) * stride) else 0) = f (wb + 1024 * c * stride + a * stride)
  rw [hdiv, if_pos hok]
  ring_nf

lemma fpga_chunk_map_fail (f : Nat → Int) (ok : Nat → Bool) (wb stride c n : Nat)
    (hn : n ≤ 1024) (hok : ok (1024 * c) = false) :
    (List.range' (1024 * c) n).map
        (fun j => if ok (1024 * (j / 1024)) then f (wb + j * stride) else 0) =
      List.replicate n (0 : Int) := by
  rw [List.eq_replicate_iff]
  constructor
  · simp
  · intro v hv
    rcases List.mem_map.mp hv with ⟨a, ha, rfl⟩
    rcases List.mem_range'.mp ha with ⟨i, hi, rfl⟩
    have hdiv : (1024 * c + 1 * i) / 1024 = c := by omega
    show (if ok (1024 * ((1024 * c + 1 * i) / 1024)) then
        f (wb + (1024 * c + 1 * i) * stride) else 0) = 0
    rw [hdiv, if_neg (by rw [hok]; simp)]

lemma fpga_loop_spec (f : Nat → Int) (ok : Nat → Bool) (wb stride M : Nat) :
    ∀ (fuel c : Nat), M - 1024 * c ≤ fuel →
      fpga_loop f ok wb stride M fuel (1024 * c) =
        ((List.range' (1024 * c) (M - 1024 * c)).map
            (fun j => if ok (1024 * (j / 1024)) then f (wb + j * stride) else 0),
         ((List.range' c ((M + 1023) / 1024 - c)).map (fun k => 1024 * k)).filter
            (fun r => !(ok r))) := by
  intro fuel
  induction fuel with
  | zero =>
    intro c hc
    have h1 : M - 1024 * c = 0 := by omega
    have h2 : (M + 1023) / 1024 - c = 0 := by omega
    rw [h1, h2]
    simp [fpga_loop]
  | succ fuel ih =>
    intro c hc
    by_cases hlt : 1024 * c < M
    · simp only [fpga_loop, FPGA_MAX_DIM_M]
      rw [if_pos hlt]
      by_cases hbig : 1024 < M - 1024 * c
      · -- full chunk of 1024 rows
        have hmin : min (M - 1024 * c) 1024 = 1024 := by omega
        have ihr := ih (c + 1) (by omega)
        rw [show 1024 * (c + 1) = 1024 * c + 1024 by ring] at ihr
        simp only [hmin]
        rw [ihr]
        have hranges : List.range' (1024 * c) 1024 ++
            List.range' (1024 * c + 1024) (M - (1024 * c + 1024)) =
            List.range' (1024 * c) (M - 1024 * c) := by
          rw [List.range'_append_1]
          congr 1
          omega
        have hres : (List.range' (1024 * c) (M - 1024 * c)).map
            (fun j => if ok (1024 * (j / 1024)) then f (wb + j * stride) else 0) =
            ((List.range' (1024 * c) 1024).map
              (fun j => if ok (1024 * (j / 1024)) then f (wb + j * stride) else 0)) ++
            ((List.range' (1024 * c + 1024) (M - (1024 * c + 1024))).map
              (fun j => if ok (1024 * (j / 1024)) then f (wb + j * stride) else 0)) := by
          rw [← List.map_append, hranges]
        have hcnt : (M + 1023) / 1024 - c = ((M + 1023) / 1024 - (c + 1)) + 1 := by omega
        have hfails : ((List.range' c ((M + 1023) / 1024 - c)).map (fun k => 1024 * k)).filter
            (fun r => !(ok r)) =
            (if (!(ok (1024 * c))) = true then
              1024 * c ::
                ((List.range' (c + 1) ((M + 1023) / 1024 - (c + 1))).map
                  (fun k => 1024 * k)).filter (fun r => !(ok r))
            else
              ((List.range' (c + 1) ((M + 1023) / 1024 - (c + 1))).map
                (fun k => 1024 * k)).filter (fun r => !(ok r))) := by
          conv_lhs => rw [hcnt]
          rw [show ((M + 1023) / 1024 - (c + 1)) + 1 = (((M + 1023) / 1024 - (c + 1))) + 1 from rfl]
          rw [List.range'_succ, List.map_cons, List.filter_cons]
        cases hok : ok (1024 * c) with
        | true =>
          rw [if_pos rfl]
          simp only [Prod.mk.injEq]
          constructor
          · rw [hres, fpga_chunk_map_ok f ok wb stride c 1024 (by omega) hok]
          · rw [hfails, hok]
            simp
        | false =>
          rw [if_neg (by simp)]
          simp only [Prod.mk.injEq]
          constructor
          · rw [hres, fpga_chunk_map_fail f ok wb stride c 1024 (by omega) hok]
          · rw [hfails, hok]
            simp
      · -- final, possibly smaller chunk: tile_m = M - 1024 * c
        have hmin : min (M - 1024 * c) 1024 = M - 1024 * c := by omega
        have hnext : 1024 * c + (M - 1024 * c) = M := by omega
        have hcnt : (M + 1023) / 1024 - c = 1 := by omega
        simp only [hmin, hnext]
        rw [fpga_loop_of_le f ok wb stride M fuel M (le_refl M)]
        have hfails : ((List.range' c ((M + 1023) / 1024 - c)).map (fun k => 1024 * k)).filter
            (fun r => !(ok r)) =
            (if (!(ok (1024 * c))) = true then [1024 * c] else []) := by
          rw [hcnt, List.range'_succ, List.range'_zero, List.map_cons, List.map_nil,
            List.filter_cons, List.filter_nil]
        cases hok : ok (1024 * c) with
        | true =>
          rw [if_pos rfl]
          simp only [Prod.mk.injEq]
          constructor
          · rw [fpga_chunk_map_ok f ok wb stride c (M - 1024 * c) (by omega) hok]
            simp
          · rw [hfails, hok]
            simp
        | false =>
          rw [if_neg (by simp)]
          simp only [Prod.mk.injEq]
          constructor
          · rw [fpga_chunk_map_fail f ok wb stride c (M - 1024 * c) (by omega) hok]
            simp
          · rw [hfails, hok]
            simp
    · have h1 : M - 1024 * c = 0 := by omega
      have h2 : (M + 1023) / 1024 - c = 0 := by omega
      rw [h1, h2, fpga_loop_of_le f ok wb stride M (fuel + 1) (1024 * c) (by omega)]
      simp

lemma fpga_bitlinear_eq (f : Nat → Int) (ok : Nat → Bool) (wb stride M : Nat) :
    fpga_bitlinear f ok wb stride M =
      ((List.range M).map
          (fun j => if ok (1024 * (j / 1024)) then f (wb + j * stride) else 0),
       ((List.range ((M + 1023) / 1024)).map (fun k => 1024 * k)).filter
          (fun r => !(ok r))) := by
  unfold fpga_bitlinear
  have := fpga_loop_spec f ok wb stride M M 0 (by omega)
  rw [Nat.mul_zero] at this
  rw [this]
  rw [List.range_eq_range', List.range_eq_range']
  simp

/-- C2.  When every chunk's wait-for-done succeeds, the tiled
`fpga_bitlinear` produces, row by row, the same result vector as a
single hypothetical hardware invocation with unlimited `DIM_M`
(`single_invocation_unlimited`), and reports no failure; each chunk at
row offset `r` reads weights from `weight_base + r * stride` and
processes `min (M - r) FPGA_MAX_DIM_M` rows, so the final chunk is
smaller when `M` is not a multiple of 1024. -/
theorem fpga_bitlinear_tiling_transparent (f : Nat → Int) (ok : Nat → Bool)
    (wb stride M : Nat) (hM : FPGA_MAX_DIM_M < M) (hok : ∀ r, ok r = true) :
    (fpga_bitlinear f ok wb stride M).1 = single_invocation_unlimited f wb stride M ∧
    (fpga_bitlinear f ok wb stride M).2 = [] := by
  rw [fpga_bitlinear_eq]
  constructor
  · unfold single_invocation_unlimited
    apply List.map_congr_left
    intro j _
    rw [hok (1024 * (j / 1024)), if_pos rfl]
  · apply List.filter_eq_nil_iff.mpr
    intro r _
    rw [hok r]
    simp

/-- Witness for C2 at a concrete input with M = 1025 (two chunks). -/
theorem fpga_bitlinear_tiling_transparent_witness :
    FPGA_MAX_DIM_M < 1025 ∧
    (fpga_bitlinear (fun a => (a : Int)) (fun _ => true) 7 3 1025).1 =
      single_invocation_unlimited (fun a => (a : Int)) 7 3 1025 :=
  ⟨by decide,
   (fpga_bitlinear_tiling_transparent (fun a => (a : Int)) (fun _ => true) 7 3 1025
      (by decide) (fun _ => rfl)).1⟩

/-- C5.  Complete characterization of `fpga_bitlinear` under chunk
timeouts: the result vector always has all `M` rows (processing
continues past a timed-out chunk); row `j` carries the hardware value
`f (wb + j*stride)` when the chunk containing it (row offset
`1024 * (j / 1024)`) signalled done, and 0 exactly when that chunk
timed out; the reported-failure list contains precisely the row offsets
of the timed-out chunks, in order — the caller gets the partial,
zero-padded result plus one failure report per timed-out chunk. -/
theorem fpga_bitlinear_timeout_isolation (f : Nat → Int) (ok : Nat → Bool)
    (wb stride M : Nat) :
    (fpga_bitlinear f ok wb stride M).1 =
      (List.range M).map
        (fun j => if ok (FPGA_MAX_DIM_M * (j / FPGA_MAX_DIM_M)) then f (wb + j * stride) else 0) ∧
    (fpga_bitlinear f ok wb stride M).2 =
      ((List.range ((M + (FPGA_MAX_DIM_M - 1)) / FPGA_MAX_DIM_M)).map
          (fun k => FPGA_MAX_DIM_M * k)).filter (fun r => !(ok r)) := by
  rw [fpga_bitlinear_eq]
  exact ⟨rfl, rfl⟩

/-- Closed instance of C5: with the chunk at row offset 1024 timed out
(M = 2048), row 1500 is zero-filled while row 500 keeps its hardware
value, and the failure list is exactly `[1024]`. -/
theorem fpga_bitlinear_timeout_isolation_witness :
    (fpga_bitlinear (fun a => (a : Int)) (fun r => r != 1024) 7 3 2048).1 =
      (List.range 2048).map
        (fun j => if (1024 * (j / 1024)) != 1024 then ((7 + j * 3 : Nat) : Int) else 0) ∧
    (fpga_bitlinear (fun a => (a : Int)) (fun r => r != 1024) 7 3 2048).2 = [1024] := by
  have h := fpga_bitlinear_timeout_isolation (fun a => (a : Int)) (fun r => r != 1024) 7 3 2048
  constructor
  · rw [h.1]
    apply List.map_congr_left
    intro j _
    show (if ((1024 * (j / 1024) : Nat) != 1024) = true then ((7 + j * 3 : Nat) : Int) else 0) = _
    rfl
  · rw [h.2]
    decide

end BitNet
